import Mathlib

/-!
# Verification of the `tandem` process supervisor

A shallow embedding, in Lean 4, of the parts of the `tandem` repository
(package `tandem`, package `ansi`, and `tandem/output.go`) that the
specification's claims are about, together with theorems settling those
claims.

Conventions:
* Go strings and byte slices are modelled as `List Char` (`GoStr`).
* Pure Go functions become Lean functions with the same name where possible.
* Go standard-library helpers (`strings.HasPrefix`, `filepath.Base`,
  `bufio.Reader.ReadLine`, ...) are embedded following their documented
  semantics; each embedding carries a comment naming the Go function.
* Effectful code is embedded as a function returning the list of observable
  actions (lines handed to the output multiplexer, signals sent), or, for the
  process manager's shutdown coordination, as an executable event-step
  machine.
-/

/-- Go strings / byte slices are modelled as lists of characters. -/
abbrev GoStr := List Char

/-- Convenience conversion from a Lean string literal to `GoStr`. -/
def gs (s : String) : GoStr := s.toList

/-! ## Embeddings of the Go standard-library string helpers used by tandem -/

/-- Embeds `strings.HasPrefix` / `bytes.HasPrefix`. -/
def goHasPre (p s : GoStr) : Bool := List.isPrefixOf p s

/-- Embeds `strings.TrimPrefix` / `bytes.TrimPrefix`: drop `p` from the front of `s`
when it is a prefix, otherwise return `s` unchanged. -/
def goTrimPre (p s : GoStr) : GoStr :=
  if List.isPrefixOf p s then s.drop p.length else s

/-- Embeds `unicode.IsSpace`, restricted to the Latin-1 range. Go additionally
accepts characters in the Unicode space category; none of the claims
involve such characters, so they are omitted from the model. -/
def goIsSpace (c : Char) : Bool :=
  c = ' ' || c = '\t' || c = '\n' || c = '\x0b' || c = '\x0c' || c = '\r' ||
  c = '\x85' || c = '\xa0'

/-- Embeds `strings.TrimSpace`: remove leading and trailing whitespace. -/
def goTrimSpace (s : GoStr) : GoStr :=
  ((s.dropWhile goIsSpace).reverse.dropWhile goIsSpace).reverse

/-- The `before` component of `strings.Cut(s, " ")`: everything up to the
first space character (the whole string when there is no space). Only the
`before` component is used by `filterCmdName`. -/
def goCutSpace : GoStr → GoStr
  | [] => []
  | c :: rest => if c = ' ' then [] else c :: goCutSpace rest

/-- Embeds `strings.Split(s, sep)` for a single-character separator `c` (tandem only
splits on the one-character string `"*"`). -/
def goSplitOn (c : Char) : GoStr → List GoStr
  | [] => [[]]
  | x :: rest =>
    match goSplitOn c rest with
    | [] => [[]]
    | p :: ps => if x = c then [] :: p :: ps else (x :: p) :: ps

/-- Embeds `strings.EqualFold`, restricted to ASCII simple case folding
(`Char.toLower` lowercases exactly the ASCII uppercase letters). Go also
folds non-ASCII letters; none of the claims involve such characters. -/
def goEqualFold (a b : GoStr) : Bool :=
  a.map Char.toLower == b.map Char.toLower

/-- Strip trailing `/` separators, first step of `filepath.Base`. -/
def stripTrailingSep (s : GoStr) : GoStr :=
  (s.reverse.dropWhile (fun c => c = '/')).reverse

/-- Everything after the last `/`, second step of `filepath.Base`. -/
def lastComponent (s : GoStr) : GoStr :=
  (s.reverse.takeWhile (fun c => c ≠ '/')).reverse

/-- Embeds `filepath.Base` on Unix: last element of the path after removing
trailing separators; `"."` for the empty path, `"/"` for an all-separator
path. -/
def goBase (path : GoStr) : GoStr :=
  if path = [] then gs "."
  else
    let p := stripTrailingSep path
    if p = [] then gs "/"
    else lastComponent p

/-! ## Package `ansi` (src/unnamed/part_000)

Each function takes the `NoColor` package variable as an explicit boolean
parameter. -/

/-- Embeds `ansi.Red`. -/
def ansiRed (noColor : Bool) (s : GoStr) : GoStr :=
  if noColor then s else gs "\x1b[0;31m" ++ s ++ gs "\x1b[0m"

/-- Embeds `ansi.Dim`. -/
def ansiDim (noColor : Bool) (s : GoStr) : GoStr :=
  if noColor then s else gs "\x1b[0;2m" ++ s ++ gs "\x1b[0m"

/-- Embeds `ansi.ColorStart` (the palette colors are all nonnegative, so the color
index is a `Nat`; `fmt.Sprintf("%v", i)` is `toString`). -/
def colorStart (noColor : Bool) (i : Nat) : GoStr :=
  if noColor then [] else gs "\x1b[0;38;5;" ++ gs (toString i) ++ gs "m"

/-- Embeds `ansi.ColorEnd`. -/
def colorEnd (noColor : Bool) : GoStr :=
  if noColor then [] else gs "\x1b[0m"

/-! ## `wildcardMatch` (src/unnamed/part_002 lines 368-383) -/

/-- Embeds `wildcardMatch`: split the pattern on `*`; one part means case-insensitive
equality, more than two parts means no match, exactly two parts means
prefix/suffix matching (with an empty part matching trivially, exactly as the
Go branches do). -/
def wildcardMatch (pat s : GoStr) : Bool :=
  let parts := goSplitOn '*' pat
  if parts.length = 1 then goEqualFold pat s
  else if 2 < parts.length then false
  else
    match parts with
    | [p0, p1] =>
      if p0 = [] then List.isSuffixOf p1 s
      else if p1 = [] then List.isPrefixOf p0 s
      else List.isPrefixOf p0 s && List.isSuffixOf p1 s
    | _ => false

/-! ### Structure of `goSplitOn` -/

lemma goSplitOn_ne_nil (c : Char) (s : GoStr) : goSplitOn c s ≠ [] := by
  cases s with
  | nil => simp [goSplitOn]
  | cons x rest =>
    simp only [goSplitOn]
    rcases h : goSplitOn c rest with _ | ⟨p, ps⟩
    · simp
    · by_cases hx : x = c <;> simp [hx]

lemma goSplitOn_length (c : Char) (s : GoStr) :
    (goSplitOn c s).length = s.count c + 1 := by
  induction s with
  | nil => simp [goSplitOn]
  | cons x rest ih =>
    simp only [goSplitOn]
    rcases h : goSplitOn c rest with _ | ⟨p, ps⟩
    · exact absurd h (goSplitOn_ne_nil c rest)
    · rw [h] at ih
      rw [List.count_cons]
      show (if x = c then [] :: p :: ps else (x :: p) :: ps).length =
        (List.count c rest + if (x == c) = true then 1 else 0) + 1
      by_cases hx : x = c
      · rw [if_pos hx, if_pos (show (x == c) = true by simpa using hx)]
        simp only [List.length_cons] at ih ⊢
        omega
      · rw [if_neg hx, if_neg (show ¬ (x == c) = true by simpa using hx)]
        simp only [List.length_cons] at ih ⊢
        omega

lemma goSplitOn_no_sep (c : Char) (s : GoStr) (h : s.count c = 0) :
    goSplitOn c s = [s] := by
  induction s with
  | nil => rfl
  | cons x rest ih =>
    rw [List.count_cons] at h
    have hx : ¬ x = c := by
      intro hc
      rw [if_pos (by simpa using hc)] at h
      omega
    have hr : rest.count c = 0 := by
      rw [if_neg (by simpa using hx)] at h
      omega
    simp only [goSplitOn, ih hr, if_neg hx]

lemma goSplitOn_single_sep (c : Char) (a b : GoStr) (ha : a.count c = 0) :
    goSplitOn c (a ++ c :: b) = a :: goSplitOn c b := by
  induction a with
  | nil =>
    simp only [List.nil_append, goSplitOn]
    rcases h : goSplitOn c b with _ | ⟨p, ps⟩
    · exact absurd h (goSplitOn_ne_nil c b)
    · simp
  | cons x rest ih =>
    rw [List.count_cons] at ha
    have hx : ¬ x = c := by
      intro hc
      rw [if_pos (by simpa using hc)] at ha
      omega
    have hr : rest.count c = 0 := by
      rw [if_neg (by simpa using hx)] at ha
      omega
    have ih2 := ih hr
    rw [List.cons_append]
    simp only [goSplitOn, ih2, if_neg hx]

/-- Claim C8: `wildcardMatch` with a star-free pattern is case-insensitive
equality; with a single-star pattern (`pat = a ++ '*' :: b` with star-free
`a`, `b`) it holds exactly when `s` starts with the part before the star and
ends with the part after it; with two or more stars it is always `false`. -/
theorem c8_wildcard_match (pat s : GoStr) :
    (pat.count '*' = 0 → wildcardMatch pat s = goEqualFold pat s) ∧
    (∀ a b : GoStr, pat = a ++ '*' :: b → a.count '*' = 0 → b.count '*' = 0 →
      (wildcardMatch pat s = true ↔
        (List.isPrefixOf a s = true ∧ List.isSuffixOf b s = true))) ∧
    (2 ≤ pat.count '*' → wildcardMatch pat s = false) := by
  refine ⟨?_, ?_, ?_⟩
  · intro h0
    rw [wildcardMatch]
    have := goSplitOn_no_sep '*' pat h0
    simp [this]
  · intro a b hdec hta htb
    subst hdec
    have hsplit : goSplitOn '*' (a ++ '*' :: b) = [a, b] := by
      rw [goSplitOn_single_sep '*' a b hta, goSplitOn_no_sep '*' b htb]
    have hgoal : wildcardMatch (a ++ '*' :: b) s =
        (if a = [] then List.isSuffixOf b s
         else if b = [] then List.isPrefixOf a s
         else List.isPrefixOf a s && List.isSuffixOf b s) := by
      rw [wildcardMatch]
      simp only [hsplit, List.length_cons, List.length_nil]
      norm_num
    rw [hgoal]
    by_cases hae : a = []
    · rw [if_pos hae, hae]
      simp [List.isPrefixOf_iff_prefix, List.isSuffixOf_iff_suffix, List.nil_prefix]
    · by_cases hbe : b = []
      · rw [if_neg hae, if_pos hbe, hbe]
        simp only [List.isPrefixOf_iff_prefix, List.isSuffixOf_iff_suffix]
        constructor
        · intro hp; exact ⟨hp, List.nil_suffix⟩
        · intro hp; exact hp.1
      · rw [if_neg hae, if_neg hbe]
        simp only [Bool.and_eq_true]
  · intro h2
    rw [wildcardMatch]
    have hlen := goSplitOn_length '*' pat
    have hne1 : ¬ (goSplitOn '*' pat).length = 1 := by omega
    have hgt : 2 < (goSplitOn '*' pat).length := by omega
    simp [hne1, hgt]

/-- Witness for C8 at concrete inputs: the pattern `"build:*"` decomposes as
`"build:" ++ '*' :: ""`, and matching against `"build:css"` agrees with the
prefix/suffix characterization. -/
theorem c8_wildcard_match_witness :
    gs "build:*" = gs "build:" ++ '*' :: gs "" ∧
    (wildcardMatch (gs "build:*") (gs "build:css") = true ↔
      (List.isPrefixOf (gs "build:") (gs "build:css") = true ∧
       List.isSuffixOf (gs "") (gs "build:css") = true)) :=
  ⟨by decide,
   (c8_wildcard_match (gs "build:*") (gs "build:css")).2.1 (gs "build:") (gs "")
     (by decide) (by decide) (by decide)⟩

/-! ## Commands and name derivation (src/unnamed/part_002 lines 229-363) -/

/-- The `command` struct: a derived display name plus the shell command text. -/
structure command where
  name : GoStr
  cmd : GoStr
deriving DecidableEq, Repr

/-- Embeds `filterCmdName`: the basename of the text before the first space of the
whitespace-trimmed command, with `"."` and `"/"` mapped to the empty name. -/
def filterCmdName (cmd : GoStr) : GoStr :=
  let name := goBase (goCutSpace (goTrimSpace cmd))
  if name = gs "." || name = gs "/" then [] else name

/-- The name computed for a command in the first loop of `parseCommands`
(lines 237-241): `filterCmdName`, falling back to `"cmd"` when empty. -/
def deriveName (cmd : GoStr) : GoStr :=
  let n := filterCmdName cmd
  if n = [] then gs "cmd" else n

/-- The test `strings.HasPrefix(name, "npm:")` on the derived name
(line 242), which routes a command to the npm-resolution path. -/
def isNpmCmd (cmd : GoStr) : Bool := goHasPre (gs "npm:") (deriveName cmd)

/-- The first loop of `parseCommands` (lines 235-250): plain commands are
appended to the result in input order; npm-prefixed commands are collected
(in input order) for later resolution. -/
def splitCmds : List GoStr → (List command × List GoStr)
  | [] => ([], [])
  | cmd :: rest =>
    let r := splitCmds rest
    if isNpmCmd cmd then (r.1, cmd :: r.2)
    else (⟨deriveName cmd, cmd⟩ :: r.1, r.2)

/-- Go map lookup `pkg.Scripts[scriptName]`. The decoded `package.json`
script table is modelled as an association list (Go map keys are unique). -/
def lookupScript : List (GoStr × GoStr) → GoStr → Option GoStr
  | [], _ => none
  | kv :: rest, n => if kv.1 = n then some kv.2 else lookupScript rest n

/-- The wildcard loop of `parseNpmScripts` (lines 314-324): all scripts whose
name matches the pattern, in table order. Go iterates its map in an
unspecified order; the claims under verification do not depend on which
order is chosen, so the listed order is used. -/
def npmMatches (scripts : List (GoStr × GoStr)) (sn : GoStr) : List command :=
  (scripts.filter (fun kv => wildcardMatch sn kv.1)).map (fun kv => ⟨kv.1, kv.2⟩)

/-- The main loop of `parseNpmScripts` (lines 297-328), returning the
resolved commands together with the collected missing (non-wildcard,
unmatched) script names; a wildcard pattern with no match aborts with an
error immediately, exactly as the early `return nil, fmt.Errorf(...)` does. -/
def npmLoop (scripts : List (GoStr × GoStr)) :
    List GoStr → Except GoStr (List command × List GoStr)
  | [] => .ok ([], [])
  | cmd :: rest =>
    let sn := goTrimPre (gs "npm:") cmd
    match lookupScript scripts sn with
    | some s =>
      match npmLoop scripts rest with
      | .error e => .error e
      | .ok r => .ok (⟨sn, s⟩ :: r.1, r.2)
    | none =>
      if !sn.contains '*' then
        match npmLoop scripts rest with
        | .error e => .error e
        | .ok r => .ok (r.1, sn :: r.2)
      else
        if npmMatches scripts sn = [] then
          .error (gs "no npm scripts matching " ++ sn ++ gs " found in package.json")
        else
          match npmLoop scripts rest with
          | .error e => .error e
          | .ok r => .ok (npmMatches scripts sn ++ r.1, r.2)

/-- Embeds `parseNpmScripts` (lines 291-337): run the loop, then fail if any
non-wildcard script name was missing. `json.Unmarshal` of `package.json` is
modelled as the already-decoded `scripts` table. -/
def parseNpmScripts (scripts : List (GoStr × GoStr)) (cmds : List GoStr) :
    Except GoStr (List command) :=
  match npmLoop scripts cmds with
  | .error e => .error e
  | .ok r =>
    if r.2 = [] then .ok r.1
    else .error (gs "no npm scripts named " ++ r.2.flatten ++ gs " found in package.json")

/-- Number of entries of `res` whose name is `n` (`len(namesMap[n])` in the
rename loop of `parseCommands`, lines 266-281). -/
def countName (res : List command) (n : GoStr) : Nat :=
  (res.filter (fun c => c.name = n)).length

/-- The rename loop of `parseCommands` (lines 266-281). The Go code builds a
map from each name to the increasing list of indexes carrying that name and
renames every group of two or more positionally. The groups are disjoint
and each index `i` of a group of size `> 1` receives suffix
`.(1 + number of earlier indexes with the same name)`, so the loop — whose
map-iteration order Go leaves unspecified and which does not affect the
result — is embedded by its pointwise effect. -/
def renameDups (res : List command) : List command :=
  res.mapIdx fun i c =>
    if 1 < countName res c.name then
      { c with name := c.name ++ gs "." ++ gs (toString (countName (res.take i) c.name + 1)) }
    else c

/-- Embeds `parseCommands` (lines 234-283): split plain from npm commands, resolve
the npm ones against the script table (only when there are any, mirroring
the `len(npmCommands) > 0` guard; reading `package.json` itself is modelled
as the given table), append them after the plain ones, then rename
duplicates. -/
def parseCommands (scripts : List (GoStr × GoStr)) (cmds : List GoStr) :
    Except GoStr (List command) :=
  let r := splitCmds cmds
  match (if r.2 = [] then Except.ok [] else parseNpmScripts scripts r.2) with
  | .error e => .error e
  | .ok scriptCmds => .ok (renameDups (r.1 ++ scriptCmds))

/-- The color palette (line 21). -/
def colors : List Nat := [2, 3, 4, 5, 6, 42, 130, 103, 129, 108]

/-- The process-constructing part of `New` (lines 44-80): on a parse error
nothing is constructed; otherwise one process per named command, with
`Color: colors[i%len(colors)]`. -/
def newManagerProcs (scripts : List (GoStr × GoStr)) (cmds : List GoStr) :
    Except GoStr (List (command × Nat)) :=
  match parseCommands scripts cmds with
  | .error e => .error e
  | .ok named => .ok (named.mapIdx fun i c => (c, colors.getD (i % colors.length) 0))

/-- A script name resolves against the table iff it has an exact entry or it
contains a wildcard and some entry matches it (the resolution conditions of
`parseNpmScripts`). -/
def resolves (scripts : List (GoStr × GoStr)) (sn : GoStr) : Bool :=
  (lookupScript scripts sn).isSome ||
    (sn.contains '*' && scripts.any (fun kv => wildcardMatch sn kv.1))

/-! ### C7: unresolved npm commands abort construction -/

lemma npmMatches_ne_nil_any (scripts : List (GoStr × GoStr)) (sn : GoStr)
    (h : npmMatches scripts sn ≠ []) :
    scripts.any (fun kv => wildcardMatch sn kv.1) = true := by
  rw [npmMatches] at h
  rcases hf : scripts.filter (fun kv => wildcardMatch sn kv.1) with _ | ⟨kv, rest⟩
  · rw [hf] at h
    simp at h
  · have hmem : kv ∈ scripts.filter (fun kv => wildcardMatch sn kv.1) := by
      rw [hf]; exact List.mem_cons_self kv rest
    have := List.of_mem_filter hmem
    exact List.any_eq_true.mpr ⟨kv, List.mem_of_mem_filter hmem, this⟩

lemma npmLoop_resolves (scripts : List (GoStr × GoStr)) :
    ∀ (l : List GoStr) (r : List command × List GoStr), npmLoop scripts l = .ok r →
      ∀ c ∈ l, resolves scripts (goTrimPre (gs "npm:") c) = true ∨
        goTrimPre (gs "npm:") c ∈ r.2
  | [], _, _, c, hc => absurd hc (List.not_mem_nil c)
  | cmd :: rest, r, h, c, hc => by
    simp only [npmLoop] at h
    split at h
    · -- exact lookup succeeded for cmd
      rename_i s hl
      split at h
      · exact absurd h (by simp)
      · rename_i r2 hrest
        rcases List.mem_cons.mp hc with rfl | hmem
        · left
          rw [resolves, hl]
          simp
        · rcases npmLoop_resolves scripts rest r2 hrest c hmem with hres | hmem2
          · exact Or.inl hres
          · right
            have hr : r = (⟨goTrimPre (gs "npm:") cmd, s⟩ :: r2.1, r2.2) := by
              injection h with h2
              exact h2.symm
            rw [hr]
            exact hmem2
    · rename_i hl
      split at h
      · -- not a wildcard pattern: the script name is recorded as missing
        rename_i hw
        split at h
        · exact absurd h (by simp)
        · rename_i r2 hrest
          have hr : r = (r2.1, goTrimPre (gs "npm:") cmd :: r2.2) := by
            injection h with h2
            exact h2.symm
          rcases List.mem_cons.mp hc with rfl | hmem
          · right
            rw [hr]
            exact List.mem_cons_self _ _
          · rcases npmLoop_resolves scripts rest r2 hrest c hmem with hres | hmem2
            · exact Or.inl hres
            · right
              rw [hr]
              exact List.mem_cons_of_mem _ hmem2
      · -- wildcard pattern
        rename_i hw
        split at h
        · exact absurd h (by simp)
        · rename_i hm
          split at h
          · exact absurd h (by simp)
          · rename_i r2 hrest
            have hr : r = (npmMatches scripts (goTrimPre (gs "npm:") cmd) ++ r2.1, r2.2) := by
              injection h with h2
              exact h2.symm
            rcases List.mem_cons.mp hc with rfl | hmem
            · left
              rw [resolves, hl]
              have hcont : (goTrimPre (gs "npm:") c).contains '*' = true := by
                rcases hb : (goTrimPre (gs "npm:") c).contains '*' with _ | _
                · rw [hb] at hw
                  exact absurd rfl hw
                · rfl
              simp only [Option.isSome_none, Bool.false_or, Bool.and_eq_true]
              exact ⟨hcont, npmMatches_ne_nil_any scripts _ hm⟩
            · rcases npmLoop_resolves scripts rest r2 hrest c hmem with hres | hmem2
              · exact Or.inl hres
              · right
                rw [hr]
                exact hmem2

lemma parseNpmScripts_resolves (scripts : List (GoStr × GoStr)) (l : List GoStr)
    (res : List command) (h : parseNpmScripts scripts l = .ok res) :
    ∀ c ∈ l, resolves scripts (goTrimPre (gs "npm:") c) = true := by
  intro c hc
  rw [parseNpmScripts] at h
  split at h
  · exact absurd h (by simp)
  · rename_i r hloop
    split at h
    · rename_i hm
      rcases npmLoop_resolves scripts l r hloop c hc with hres | hmem
      · exact hres
      · rw [hm] at hmem
        exact absurd hmem (List.not_mem_nil _)
    · exact absurd h (by simp)

lemma mem_splitCmds_npm (cmds : List GoStr) (c : GoStr) (hc : c ∈ cmds)
    (hn : isNpmCmd c = true) : c ∈ (splitCmds cmds).2 := by
  induction cmds with
  | nil => exact absurd hc (List.not_mem_nil c)
  | cons cmd rest ih =>
    rcases List.mem_cons.mp hc with rfl | hmem
    · rw [splitCmds, if_pos hn]
      exact List.mem_cons_self _ _
    · rw [splitCmds]
      by_cases hcmd : isNpmCmd cmd = true
      · rw [if_pos hcmd]
        exact List.mem_cons_of_mem _ (ih hmem)
      · rw [if_neg hcmd]
        exact ih hmem

/-- Claim C7: if any npm-prefixed command fails to resolve against the
script table (no exact match, and no wildcard match for patterns with a
wildcard), `parseCommands` — and hence `New`'s process construction —
returns an error: nothing is constructed, all-or-nothing. -/
theorem c7_all_or_nothing (scripts : List (GoStr × GoStr)) (cmds : List GoStr)
    (c : GoStr) (hc : c ∈ cmds) (hn : isNpmCmd c = true)
    (hu : resolves scripts (goTrimPre (gs "npm:") c) = false) :
    (∃ e, parseCommands scripts cmds = .error e) ∧
    (∃ e, newManagerProcs scripts cmds = .error e) := by
  have hmem : c ∈ (splitCmds cmds).2 := mem_splitCmds_npm cmds c hc hn
  have hne : ¬ (splitCmds cmds).2 = [] := by
    intro h0
    rw [h0] at hmem
    exact absurd hmem (List.not_mem_nil c)
  obtain ⟨e, he⟩ : ∃ e, parseNpmScripts scripts (splitCmds cmds).2 = .error e := by
    rcases hres : parseNpmScripts scripts (splitCmds cmds).2 with e | res
    · exact ⟨e, rfl⟩
    · have := parseNpmScripts_resolves scripts _ res hres c hmem
      rw [hu] at this
      exact absurd this (by simp)
  have hpc : parseCommands scripts cmds = .error e := by
    rw [parseCommands]
    simp only [if_neg hne, he]
  refine ⟨⟨e, hpc⟩, ⟨e, ?_⟩⟩
  rw [newManagerProcs, hpc]

/-- Witness for C7: the command `"npm:build"` does not resolve against a
script table containing only `"dev"`, so parsing fails. -/
theorem c7_all_or_nothing_witness :
    ∃ e, parseCommands [(gs "dev", gs "vite")] [gs "npm:build"] = .error e :=
  (c7_all_or_nothing [(gs "dev", gs "vite")] [gs "npm:build"] (gs "npm:build")
    (by decide) (by decide) (by decide)).1

/-! ### C6 and C9: name derivation, duplicate numbering, npm reordering -/

/-- Occurrences of `b` in a list of derived names. -/
def countOcc (bs : List GoStr) (b : GoStr) : Nat :=
  (bs.filter (fun x => x = b)).length

lemma getElem?_mapIdx {α β : Type} (f : Nat → α → β) (l : List α) (i : Nat) :
    (List.mapIdx f l)[i]? = Option.map (f i) l[i]? := by
  rw [List.mapIdx_eq_enum_map, List.getElem?_map, List.getElem?_enum]
  cases h : l[i]? <;> simp [Function.uncurry]

lemma renameDups_getElem? (res : List command) (i : Nat) :
    (renameDups res)[i]? = Option.map
      (fun c => if 1 < countName res c.name then
          { c with name := (c.name ++ gs "." ++
              gs (toString (countName (res.take i) c.name + 1))) }
        else c) res[i]? := by
  rw [renameDups, getElem?_mapIdx]

lemma splitCmds_no_npm (cmds : List GoStr) (h : ∀ c ∈ cmds, isNpmCmd c = false) :
    splitCmds cmds = (cmds.map (fun c => ⟨deriveName c, c⟩), []) := by
  induction cmds with
  | nil => rfl
  | cons cmd rest ih =>
    have hcmd : isNpmCmd cmd = false := h cmd (List.mem_cons_self _ _)
    have hrest := ih (fun c hc => h c (List.mem_cons_of_mem _ hc))
    rw [splitCmds, hrest]
    simp [hcmd]

lemma countName_derive (l : List GoStr) (n : GoStr) :
    countName (l.map (fun c => ⟨deriveName c, c⟩)) n = countOcc (l.map deriveName) n := by
  rw [countName, countOcc, ← List.countP_eq_length_filter, ← List.countP_eq_length_filter,
    List.countP_map, List.countP_map]
  rfl

lemma countOcc_take_lt (bs : List GoStr) (i j : Nat) (b : GoStr)
    (hij : i < j) (hb : bs[i]? = some b) :
    countOcc (bs.take i) b < countOcc (bs.take j) b := by
  have hji : j = i + (j - i) := by omega
  rw [hji, List.take_add]
  rw [countOcc, countOcc, List.filter_append, List.length_append]
  have h1 : 1 ≤ (((bs.drop i).take (j - i)).filter (fun x => x = b)).length := by
    have hdget : (bs.drop i)[0]? = bs[i]? := by
      rw [List.getElem?_drop]
      norm_num
    rcases hd : bs.drop i with _ | ⟨y, ys⟩
    · rw [hd, hb] at hdget
      simp at hdget
    · have hy : (y = b) = True := by
        rw [hd, hb] at hdget
        simp at hdget
        simp [hdget]
      obtain ⟨k, hk⟩ : ∃ k, j - i = k + 1 := ⟨j - i - 1, by omega⟩
      rw [hk, List.take_succ_cons]
      rw [List.filter_cons_of_pos (by simp [hy])]
      simp
  omega

/-- Counterexample to claim C6 as stated: the claim derives the display name
from the first *whitespace*-delimited token, but `filterCmdName` cuts only at
the first *space*; for a tab-separated command the derived name keeps the
tab and everything after it. -/
theorem c6_counterexample :
    parseCommands [] [gs "echo\tx"] =
      .ok [⟨gs "echo\tx", gs "echo\tx"⟩] ∧
    gs "echo\tx" ≠ gs "echo" := by
  constructor
  · rfl
  · decide

lemma renameDups_entry (res : List command) (i : Nat) (n cm : GoStr)
    (h : res[i]? = some ⟨n, cm⟩) :
    (renameDups res)[i]? = some ⟨(if 1 < countName res n
        then (n ++ gs "." ++ gs (toString (countName (res.take i) n + 1)))
        else n), cm⟩ := by
  rw [renameDups_getElem?, h]
  show some (if 1 < countName res n
      then { (⟨n, cm⟩ : command) with
        name := (n ++ gs "." ++ gs (toString (countName (res.take i) n + 1))) }
      else (⟨n, cm⟩ : command)) = _
  by_cases hc : 1 < countName res n
  · rw [if_pos hc, if_pos hc]
  · rw [if_neg hc, if_neg hc]

/-- Claim C6 (amended): for lists of commands without the `npm:` prefix, each
command's display name is the basename of the text before the first space of
the trimmed command (falling back to `"cmd"` when empty — this is
`deriveName`), and commands sharing a derived name are renamed `name.1`,
`name.2`, ... in the order supplied; the suffix numbers of two same-named
commands are strictly increasing in input order, never swapped. -/
theorem c6_name_derivation_amended (scripts : List (GoStr × GoStr))
    (cmds : List GoStr) (hn : ∀ c ∈ cmds, isNpmCmd c = false) :
    ∃ r : List command, parseCommands scripts cmds = .ok r ∧ r.length = cmds.length ∧
      (∀ (i : Nat) (c : GoStr), cmds[i]? = some c →
        r[i]? = some ⟨(if 1 < countOcc (cmds.map deriveName) (deriveName c)
            then (deriveName c ++ gs "." ++
              gs (toString (countOcc ((cmds.map deriveName).take i) (deriveName c) + 1)))
            else deriveName c), c⟩) ∧
      (∀ (i j : Nat) (ci cj : GoStr), i < j → cmds[i]? = some ci → cmds[j]? = some cj →
        deriveName ci = deriveName cj →
        countOcc ((cmds.map deriveName).take i) (deriveName ci) <
        countOcc ((cmds.map deriveName).take j) (deriveName cj)) := by
  have hsplit := splitCmds_no_npm cmds hn
  refine ⟨renameDups (cmds.map (fun c => ⟨deriveName c, c⟩)), ?_, ?_, ?_, ?_⟩
  · simp only [parseCommands, hsplit]
    simp
  · rw [renameDups, List.length_mapIdx, List.length_map]
  · intro i c hi
    have hres : (cmds.map (fun c => (⟨deriveName c, c⟩ : command)))[i]? =
        some ⟨deriveName c, c⟩ := by
      rw [List.getElem?_map, hi]
      rfl
    have hct : countName ((cmds.map (fun c => (⟨deriveName c, c⟩ : command))).take i)
        (deriveName c) = countOcc ((cmds.map deriveName).take i) (deriveName c) := by
      rw [← List.map_take, ← List.map_take, countName_derive]
    rw [renameDups_entry _ _ _ _ hres, countName_derive, hct]
  · intro i j ci cj hij hi hj hderiv
    rw [← hderiv]
    apply countOcc_take_lt _ _ _ _ hij
    rw [List.getElem?_map, hi]
    rfl

/-- Witness for C6 (amended) at a concrete input: two plain commands both
deriving the name `"go"`. -/
theorem c6_name_derivation_amended_witness :
    ∃ r : List command, parseCommands [] [gs "go run x", gs "go test y"] = .ok r ∧
      r.length = ([gs "go run x", gs "go test y"] : List GoStr).length ∧
      (∀ (i : Nat) (c : GoStr), ([gs "go run x", gs "go test y"] : List GoStr)[i]? = some c →
        r[i]? = some ⟨(if 1 < countOcc (([gs "go run x", gs "go test y"] : List GoStr).map deriveName) (deriveName c)
            then (deriveName c ++ gs "." ++
              gs (toString (countOcc ((([gs "go run x", gs "go test y"] : List GoStr).map deriveName).take i) (deriveName c) + 1)))
            else deriveName c), c⟩) ∧
      (∀ (i j : Nat) (ci cj : GoStr), i < j →
        ([gs "go run x", gs "go test y"] : List GoStr)[i]? = some ci →
        ([gs "go run x", gs "go test y"] : List GoStr)[j]? = some cj →
        deriveName ci = deriveName cj →
        countOcc ((([gs "go run x", gs "go test y"] : List GoStr).map deriveName).take i) (deriveName ci) <
        countOcc ((([gs "go run x", gs "go test y"] : List GoStr).map deriveName).take j) (deriveName cj)) :=
  c6_name_derivation_amended [] [gs "go run x", gs "go test y"] (by decide)

lemma splitCmds_eq_filter (cmds : List GoStr) :
    (splitCmds cmds).1 =
      (cmds.filter (fun c => !isNpmCmd c)).map (fun c => ⟨deriveName c, c⟩) ∧
    (splitCmds cmds).2 = cmds.filter (fun c => isNpmCmd c) := by
  induction cmds with
  | nil => exact ⟨rfl, rfl⟩
  | cons cmd rest ih =>
    rcases hcmd : isNpmCmd cmd with _ | _
    · constructor
      · simp only [splitCmds, hcmd, Bool.false_eq_true, if_false, List.filter_cons,
          Bool.not_false, if_true, List.map_cons, ih.1]
      · simp only [splitCmds, hcmd, Bool.false_eq_true, if_false, List.filter_cons, ih.2]
    · constructor
      · simp only [splitCmds, hcmd, if_true, List.filter_cons, Bool.not_true,
          Bool.false_eq_true, if_false, ih.1]
      · simp only [splitCmds, hcmd, if_true, List.filter_cons, ih.2, List.cons.injEq,
          true_and]

/-- Claim C9: `parseCommands` places all resolved npm commands after all
plain commands, regardless of input positions: the plain commands (in input
order) come first, the npm commands are collected separately (in input
order), and the final list — which drives start order, color assignment and
duplicate numbering — is `renameDups` of plain-then-npm. -/
theorem c9_npm_reorder (scripts : List (GoStr × GoStr)) (cmds : List GoStr)
    (npmPart : List command)
    (h : parseNpmScripts scripts (splitCmds cmds).2 = .ok npmPart) :
    (splitCmds cmds).1 =
      (cmds.filter (fun c => !isNpmCmd c)).map (fun c => ⟨deriveName c, c⟩) ∧
    (splitCmds cmds).2 = cmds.filter (fun c => isNpmCmd c) ∧
    parseCommands scripts cmds = .ok (renameDups ((splitCmds cmds).1 ++ npmPart)) := by
  refine ⟨(splitCmds_eq_filter cmds).1, (splitCmds_eq_filter cmds).2, ?_⟩
  by_cases hnil : (splitCmds cmds).2 = []
  · have hnp : npmPart = [] := by
      rw [hnil] at h
      simp only [parseNpmScripts, npmLoop] at h
      simp at h
      exact h
    rw [parseCommands]
    simp only [if_pos hnil, hnp, List.append_nil]
  · rw [parseCommands]
    simp only [if_neg hnil, h]

/-- Witness for C9 at a concrete input: `"npm:dev"` listed before
`"echo hi"` still ends up after it in the parsed list. -/
theorem c9_npm_reorder_witness :
    parseNpmScripts [(gs "dev", gs "vite")]
        (splitCmds [gs "npm:dev", gs "echo hi"]).2 = .ok [⟨gs "dev", gs "vite"⟩] ∧
    parseCommands [(gs "dev", gs "vite")] [gs "npm:dev", gs "echo hi"] =
      .ok (renameDups ((splitCmds [gs "npm:dev", gs "echo hi"]).1 ++ [⟨gs "dev", gs "vite"⟩])) :=
  ⟨rfl,
   (c9_npm_reorder [(gs "dev", gs "vite")] [gs "npm:dev", gs "echo hi"]
     [⟨gs "dev", gs "vite"⟩] rfl).2.2⟩

/-! ## The `process` type: Run / Interrupt / Kill (src/unnamed/part_002
lines 128-227)

`process.Run`'s effect, after `Cmd.Run` returns, is a sequence of payloads
handed to the output multiplexer via `writeLine`/`writeErr`
(`writeDebug s = writeLine(ansi.Dim(s))`, `writeErr e = WriteErr`, which
wraps the error text in `ansi.Red`). `PipeOutput`/`ClosePipe` are pty I/O
with no line output and are not part of the written-lines model. -/

/-- Outcome of `p.Cmd.Run()`: `ok` (nil error), an `exec.ExitError` carrying
`ExitCode()` and the `Error()` text, or any other execution failure (e.g. a
spawn failure) carrying its `Error()` text. -/
inductive RunResult where
  | ok
  | exitErr (code : Int) (msg : GoStr)
  | failErr (msg : GoStr)
deriving DecidableEq

/-- The lines written by `process.Run` (lines 187-209), in order: a dimmed
"Starting..." unless silent; then, per the result of `Cmd.Run`: for an
`exec.ExitError` with code 1 the error text in red, for any other code a
dimmed `exit status N`; for any other error the text in red; on success a
dimmed "Process exited" unless silent. -/
def procRunWrites (noColor silent : Bool) (res : RunResult) : List GoStr :=
  (if silent then [] else [ansiDim noColor (gs "Starting...")]) ++
  match res with
  | .exitErr code msg =>
    if code = 1 then [ansiRed noColor msg]
    else [ansiDim noColor (gs "exit status " ++ gs (toString code))]
  | .failErr msg => [ansiRed noColor msg]
  | .ok => if silent then [] else [ansiDim noColor (gs "Process exited")]

/-- Claim C2: exit-status errors with code exactly 1 are written as an
error-colored (red) line carrying the error text; any other exit code `N`
yields a dimmed `exit status N` line instead; other execution failures are
error-colored lines; a nil error with `silent = false` yields a dimmed
"Process exited" line. -/
theorem c2_exit_reporting (noColor silent : Bool) (code : Int) (msg : GoStr)
    (hc : code ≠ 1) :
    procRunWrites noColor silent (.exitErr 1 msg) =
      (if silent then [] else [ansiDim noColor (gs "Starting...")]) ++
        [ansiRed noColor msg] ∧
    procRunWrites noColor silent (.exitErr code msg) =
      (if silent then [] else [ansiDim noColor (gs "Starting...")]) ++
        [ansiDim noColor (gs "exit status " ++ gs (toString code))] ∧
    procRunWrites noColor silent (.failErr msg) =
      (if silent then [] else [ansiDim noColor (gs "Starting...")]) ++
        [ansiRed noColor msg] ∧
    procRunWrites noColor false .ok =
      [ansiDim noColor (gs "Starting..."), ansiDim noColor (gs "Process exited")] ∧
    procRunWrites noColor true .ok = [] := by
  refine ⟨rfl, ?_, rfl, rfl, rfl⟩
  rw [procRunWrites]
  rw [if_neg hc]

/-- Witness for C2 at concrete inputs (`code = 2`, color enabled, not
silent): a dimmed `exit status 2` line, not a red one. -/
theorem c2_exit_reporting_witness :
    procRunWrites false false (.exitErr 2 (gs "exit status 2")) =
      (if false then [] else [ansiDim false (gs "Starting...")]) ++
        [ansiDim false (gs "exit status " ++ gs (toString (2 : Int)))] :=
  (c2_exit_reporting false false 2 (gs "exit status 2") (by decide)).2.1

/-- The liveness-relevant state of a `process`: whether `p.Process` is set
(the command was started) and whether `p.ProcessState` is set (an exit
status was recorded), plus the `silent` flag. -/
structure ProcState where
  started : Bool
  exitState : Bool
  silent : Bool
deriving DecidableEq

/-- Embeds `process.Running` (lines 160-162):
`p.Process != nil && p.ProcessState == nil`. -/
def procRunning (p : ProcState) : Bool := p.started && !p.exitState

/-- Observable actions of `Interrupt`/`Kill`: a line handed to the output
multiplexer, or a signal sent to the whole process group (the
`os.FindProcess(-p.Process.Pid)` target of `process.signal`). -/
inductive PAction where
  | outLine (s : GoStr)
  | sigGroup (sig : Nat)
deriving DecidableEq

/-- Embeds `syscall.SIGINT`. -/
def SIGINT : Nat := 2

/-- Embeds `syscall.SIGKILL`. -/
def SIGKILL : Nat := 9

/-- Embeds `process.Interrupt` (lines 211-218): when running, a dimmed
"Interrupting..." line (unless silent) and SIGINT to the process group;
otherwise nothing. -/
def procInterrupt (noColor : Bool) (p : ProcState) : List PAction :=
  if procRunning p then
    (if !p.silent then [.outLine (ansiDim noColor (gs "Interrupting..."))] else []) ++
      [.sigGroup SIGINT]
  else []

/-- Embeds `process.Kill` (lines 220-227): when running, a dimmed "Killing..." line
(unless silent) and SIGKILL to the process group; otherwise nothing. -/
def procKill (noColor : Bool) (p : ProcState) : List PAction :=
  if procRunning p then
    (if !p.silent then [.outLine (ansiDim noColor (gs "Killing..."))] else []) ++
      [.sigGroup SIGKILL]
  else []

/-- Claim C3: `Interrupt` and `Kill` are no-ops (no signal, no status line)
on a process that is not running; on a running, non-silent process they
write one dimmed status line and signal the process group; and `Running` is
true iff the process has been started and no exit state has been
recorded. -/
theorem c3_interrupt_kill_noop (noColor : Bool) (p : ProcState) :
    (procRunning p = false →
      procInterrupt noColor p = [] ∧ procKill noColor p = []) ∧
    (procRunning p = true → p.silent = false →
      procInterrupt noColor p =
        [.outLine (ansiDim noColor (gs "Interrupting...")), .sigGroup SIGINT] ∧
      procKill noColor p =
        [.outLine (ansiDim noColor (gs "Killing...")), .sigGroup SIGKILL]) ∧
    (procRunning p = true ↔ (p.started = true ∧ p.exitState = false)) := by
  refine ⟨?_, ?_, ?_⟩
  · intro hr
    rw [procInterrupt, procKill, hr]
    exact ⟨rfl, rfl⟩
  · intro hr hs
    rw [procInterrupt, procKill, hr, hs]
    exact ⟨rfl, rfl⟩
  · rw [procRunning]
    constructor
    · intro h
      exact ⟨(Bool.and_eq_true _ _ |>.mp h).1, by
        have := (Bool.and_eq_true _ _ |>.mp h).2
        simpa using this⟩
    · intro h
      rw [h.1]
      simp [h.2]

/-- Witness for C3 at concrete inputs: an exited process yields no actions;
a running non-silent process yields the status line plus the group
signal. -/
theorem c3_interrupt_kill_noop_witness :
    (procInterrupt false ⟨true, true, false⟩ = [] ∧
     procKill false ⟨true, true, false⟩ = []) ∧
    (procInterrupt false ⟨true, false, false⟩ =
       [.outLine (ansiDim false (gs "Interrupting...")), .sigGroup SIGINT] ∧
     procKill false ⟨true, false, false⟩ =
       [.outLine (ansiDim false (gs "Killing...")), .sigGroup SIGKILL]) :=
  ⟨(c3_interrupt_kill_noop false ⟨true, true, false⟩).1 rfl,
   (c3_interrupt_kill_noop false ⟨true, false, false⟩).2.1 rfl rfl⟩

/-! ## `multiOutput.WriteLine` (src/tandem/output.go lines 73-96) -/

/-- The fields of `multiOutput` relevant to `WriteLine`: the shared maximum
name length (maintained by `Connect`) and the `printProcName` flag, plus the
`ansi.NoColor` mode. -/
structure OutputCfg where
  maxNameLength : Nat
  printProcName : Bool
  noColor : Bool
deriving DecidableEq

/-- The padding loop of `WriteLine` (line 80):
`for i := len(proc.Name); i <= m.maxNameLength; i++ { buf.WriteByte(' ') }`. -/
def padLoop (i maxLen : Nat) : GoStr :=
  if i ≤ maxLen then ' ' :: padLoop (i + 1) maxLen else []
termination_by maxLen + 1 - i

/-- The record composed by `WriteLine` for one payload: the colored,
padded name label (when `printProcName`), `ColorEnd() + " "`, the payload
with a leading `"/bin/sh: "` stripped (line 90), and one `'\n'`
(`WriteByte`). The record is flushed to the sink under the mutex as one
write; the model is the record's contents. -/
def writeLineOut (cfg : OutputCfg) (name : GoStr) (color : Nat) (p : GoStr) : GoStr :=
  (if cfg.printProcName then
    colorStart cfg.noColor color ++ name ++ padLoop name.length cfg.maxNameLength ++
      (colorEnd cfg.noColor ++ [' '])
  else []) ++ goTrimPre (gs "/bin/sh: ") p ++ ['\n']

lemma padLoop_eq_replicate : ∀ (n i m : Nat), m + 1 - i = n →
    padLoop i m = List.replicate n ' '
  | 0, i, m, h => by
    have hi : ¬ i ≤ m := by omega
    rw [padLoop, if_neg hi]
    rfl
  | n + 1, i, m, h => by
    have hi : i ≤ m := by omega
    rw [padLoop, if_pos hi, List.replicate_succ,
      padLoop_eq_replicate n (i + 1) m (by omega)]

lemma mem_goTrimPre {c : Char} {pre s : GoStr} (h : c ∈ goTrimPre pre s) :
    c ∈ s := by
  rw [goTrimPre] at h
  by_cases hp : List.isPrefixOf pre s
  · rw [if_pos hp] at h
    exact List.drop_subset _ _ h
  · rw [if_neg hp] at h
    exact h

/-- Claim C5: with `printProcName` set (as `New` always does), `WriteLine`
composes exactly one record: the colored name label padded with spaces (the
padding loop runs `maxNameLength + 1 - len(name)` times), a space
separator, the payload with a leading `"/bin/sh: "` stripped, and one
trailing newline; the padded label fills the shared width when the name
fits; and in no-color mode the record is plain text — it contains no ANSI
escape character unless the name or payload themselves do. -/
theorem c5_write_line_format (cfg : OutputCfg) (name : GoStr) (color : Nat)
    (p : GoStr) (hp : cfg.printProcName = true) :
    writeLineOut cfg name color p =
      colorStart cfg.noColor color ++ name ++
        List.replicate (cfg.maxNameLength + 1 - name.length) ' ' ++
        colorEnd cfg.noColor ++ [' '] ++ goTrimPre (gs "/bin/sh: ") p ++ ['\n'] ∧
    (name.length ≤ cfg.maxNameLength →
      (name ++ List.replicate (cfg.maxNameLength + 1 - name.length) ' ').length =
        cfg.maxNameLength + 1) ∧
    (cfg.noColor = true →
      writeLineOut cfg name color p =
        name ++ List.replicate (cfg.maxNameLength + 1 - name.length) ' ' ++ [' '] ++
          goTrimPre (gs "/bin/sh: ") p ++ ['\n'] ∧
      ('\x1b' ∉ name → '\x1b' ∉ p → '\x1b' ∉ writeLineOut cfg name color p)) := by
  have heq : writeLineOut cfg name color p =
      colorStart cfg.noColor color ++ name ++
        List.replicate (cfg.maxNameLength + 1 - name.length) ' ' ++
        colorEnd cfg.noColor ++ [' '] ++ goTrimPre (gs "/bin/sh: ") p ++ ['\n'] := by
    rw [writeLineOut, if_pos hp,
      padLoop_eq_replicate (cfg.maxNameLength + 1 - name.length) name.length
        cfg.maxNameLength rfl]
    simp [List.append_assoc]
  refine ⟨heq, ?_, ?_⟩
  · intro hle
    rw [List.length_append, List.length_replicate]
    omega
  · intro hnc
    have heq2 : writeLineOut cfg name color p =
        name ++ List.replicate (cfg.maxNameLength + 1 - name.length) ' ' ++ [' '] ++
          goTrimPre (gs "/bin/sh: ") p ++ ['\n'] := by
      rw [heq, hnc, colorStart, colorEnd]
      simp
    refine ⟨heq2, ?_⟩
    intro hn hpp hmem
    rw [heq2] at hmem
    simp only [List.mem_append, List.mem_replicate, List.mem_singleton] at hmem
    rcases hmem with ((((h1 | h2) | h3) | h4) | h5)
    · exact hn h1
    · exact absurd h2.2 (by decide)
    · exact absurd h3 (by decide)
    · exact hpp (mem_goTrimPre h4)
    · exact absurd h5 (by decide)

/-- Witness for C5 at concrete inputs: name `"web"`, shared width 5,
payload `"/bin/sh: boom"`, no-color mode. -/
theorem c5_write_line_format_witness :
    writeLineOut ⟨5, true, true⟩ (gs "web") 2 (gs "/bin/sh: boom") =
      gs "web" ++ List.replicate (5 + 1 - (gs "web").length) ' ' ++ [' '] ++
        goTrimPre (gs "/bin/sh: ") (gs "/bin/sh: boom") ++ ['\n'] :=
  ((c5_write_line_format ⟨5, true, true⟩ (gs "web") 2 (gs "/bin/sh: boom")
    rfl).2.2 rfl).1

/-! ## `scanLines` (src/tandem/output.go lines 102-131)

`bufio.Reader.ReadLine` is modelled by the sequence of its return values: a
list of chunks `(data, isPrefix)` followed by a terminating error. Per its
documentation, `ReadLine` returns each line without its terminator
(`"\n"` or `"\r\n"`), sets `isPrefix` when a long line is returned in
pieces, and gives *no indication or error when the input ends without a
final line end* — the trailing unterminated segment is returned exactly
like a line, and the end-of-stream error surfaces only on the following
call. `chunksFor`/`chunkListFor` say which chunk sequences are valid
`ReadLine` traces for given line contents, and `rlLines` gives the lines
`ReadLine` produces for a byte stream. -/

/-- One `ReadLine` return: the data and the `isPrefix` flag (`part`). -/
structure RLChunk where
  data : GoStr
  part : Bool
deriving DecidableEq

/-- The error terminating the read loop: `io.EOF`, `io.ErrClosedPipe`, or
any other read error (identified by a code). -/
inductive ReadEnd where
  | eofEnd
  | closedEnd
  | otherEnd (e : Nat)
deriving DecidableEq

/-- The result error of `scanLines`: `none` models a `nil` return. -/
def endRes : ReadEnd → Option Nat
  | .otherEnd n => some n
  | _ => none

/-- Embeds `scanLines` over a `ReadLine` trace, carrying the accumulation buffer
`buf`. Chunks are appended to the buffer; on a non-prefix chunk the callback
is invoked on the buffer and the buffer reset; when the callback returns
`false` scanning stops immediately with a `nil` error; at the terminating
error, `io.EOF` and `io.ErrClosedPipe` yield `nil`, anything else is
returned. The first component of the result is the list of callback
arguments, in order. -/
def scanLines (cb : GoStr → Bool) : List RLChunk → ReadEnd → GoStr →
    List GoStr × Option Nat
  | [], e, _ => ([], endRes e)
  | ch :: rest, e, buf =>
    let buf2 := buf ++ ch.data
    if ch.part then scanLines cb rest e buf2
    else if cb buf2 then
      let r := scanLines cb rest e []
      (buf2 :: r.1, r.2)
    else ([buf2], none)

/-- Strip one trailing `'\r'` (the `"\r\n"` handling of `ReadLine`). -/
def dropCR (l : GoStr) : GoStr :=
  if l.getLast? = some '\r' then l.dropLast else l

/-- The terminated lines of a byte stream: every segment before a `'\n'`,
with a trailing `'\r'` stripped. -/
def completeLines (content : GoStr) : List GoStr :=
  ((goSplitOn '\n' content).dropLast).map dropCR

/-- The segment after the last `'\n'` (empty when the stream ends with a
terminator). -/
def trailingPart (content : GoStr) : GoStr :=
  (goSplitOn '\n' content).getLastD []

/-- The lines `ReadLine` delivers for a byte stream: the terminated lines,
plus the trailing unterminated segment when it is non-empty. -/
def rlLines (content : GoStr) : List GoStr :=
  completeLines content ++
    (if trailingPart content = [] then [] else [trailingPart content])

/-- Holds when `cs` is a valid `ReadLine` chunking of one line `l`: every chunk but the
last has `isPrefix` set, the last does not, and the data concatenates
to `l`. -/
def chunksFor : List RLChunk → GoStr → Bool
  | [], _ => false
  | [c], l => !c.part && c.data == l
  | c :: c2 :: cs, l =>
    c.part && List.isPrefixOf c.data l && chunksFor (c2 :: cs) (l.drop c.data.length)

/-- Holds when `grps` is a valid sequence of `ReadLine` chunkings for the lines `ls`. -/
def chunkListFor : List (List RLChunk) → List GoStr → Bool
  | [], [] => true
  | [], _ :: _ => false
  | _ :: _, [] => false
  | g :: grps, l :: ls => chunksFor g l && chunkListFor grps ls

lemma isPrefixOf_append_drop {a l : GoStr} (h : List.isPrefixOf a l = true) :
    a ++ l.drop a.length = l := by
  obtain ⟨t, ht⟩ := List.isPrefixOf_iff_prefix.mp h
  rw [← ht, List.drop_left]

/-- Consuming one valid line chunking: the callback sees `buf ++ l`; if it
accepts, scanning continues with an empty buffer, otherwise it stops. -/
lemma scanLines_line (cb : GoStr → Bool) :
    ∀ (g : List RLChunk) (l : GoStr), chunksFor g l = true →
      ∀ (rest : List RLChunk) (e : ReadEnd) (buf : GoStr),
      scanLines cb (g ++ rest) e buf =
        if cb (buf ++ l) then
          ((buf ++ l) :: (scanLines cb rest e []).1, (scanLines cb rest e []).2)
        else ([buf ++ l], none)
  | [], l, hg => by
    rw [chunksFor] at hg
    exact absurd hg (by simp)
  | [c], l, hg => by
    intro rest e buf
    rw [chunksFor] at hg
    obtain ⟨h1, h2⟩ := Bool.and_eq_true _ _ |>.mp hg
    have hpart : c.part = false := by simpa using h1
    have hdata : c.data = l := by simpa using h2
    rw [List.cons_append, List.nil_append, scanLines]
    simp only [hpart, hdata, Bool.false_eq_true, if_false]
  | c :: c2 :: cs, l, hg => by
    intro rest e buf
    rw [chunksFor] at hg
    obtain ⟨h12, h3⟩ := Bool.and_eq_true _ _ |>.mp hg
    obtain ⟨h1, h2⟩ := Bool.and_eq_true _ _ |>.mp h12
    rw [List.cons_append, scanLines]
    simp only [h1, if_true]
    rw [scanLines_line cb (c2 :: cs) (l.drop c.data.length) h3 rest e (buf ++ c.data)]
    rw [List.append_assoc, isPrefixOf_append_drop h2]

/-- A full run with an always-true callback delivers exactly the chunked
lines and the loop's terminating result. -/
lemma scanLines_all :
    ∀ (grps : List (List RLChunk)) (ls : List GoStr),
      chunkListFor grps ls = true → ∀ e : ReadEnd,
      scanLines (fun _ => true) grps.flatten e [] = (ls, endRes e)
  | [], ls, h => by
    intro e
    cases ls with
    | nil => rfl
    | cons l ls2 =>
      rw [chunkListFor] at h
      exact absurd h (by simp)
  | g :: grps, ls, h => by
    intro e
    cases ls with
    | nil =>
      rw [chunkListFor] at h
      exact absurd h (by simp)
    | cons l ls2 =>
      rw [chunkListFor] at h
      obtain ⟨h1, h2⟩ := Bool.and_eq_true _ _ |>.mp h
      rw [List.flatten_cons, scanLines_line (fun _ => true) g l h1 grps.flatten e []]
      simp only [if_true, List.nil_append]
      rw [scanLines_all grps ls2 h2 e]

/-- When the callback rejects line `l` after accepting the lines before it,
scanning stops right there with a `nil` error. -/
lemma scanLines_stops (cb : GoStr → Bool) :
    ∀ (pre : List GoStr) (grps : List (List RLChunk)) (ls : List GoStr)
      (l : GoStr) (post : List GoStr), chunkListFor grps ls = true →
      ls = pre ++ l :: post → (∀ x ∈ pre, cb x = true) → cb l = false →
      ∀ e : ReadEnd, scanLines cb grps.flatten e [] = (pre ++ [l], none)
  | [], grps, ls, l, post, h, hls, _, hl => by
    intro e
    subst hls
    rw [List.nil_append] at h
    cases grps with
    | nil =>
      rw [chunkListFor] at h
      exact absurd h (by simp)
    | cons g grps2 =>
      rw [chunkListFor] at h
      obtain ⟨h1, _⟩ := Bool.and_eq_true _ _ |>.mp h
      rw [List.flatten_cons, scanLines_line cb g l h1 grps2.flatten e []]
      simp only [List.nil_append, hl, Bool.false_eq_true, if_false]
  | x :: pre2, grps, ls, l, post, h, hls, hpre, hl => by
    intro e
    subst hls
    rw [List.cons_append] at h
    cases grps with
    | nil =>
      rw [chunkListFor] at h
      exact absurd h (by simp)
    | cons g grps2 =>
      rw [chunkListFor] at h
      obtain ⟨h1, h2⟩ := Bool.and_eq_true _ _ |>.mp h
      rw [List.flatten_cons, scanLines_line cb g x h1 grps2.flatten e []]
      have hx : cb x = true := hpre x (List.mem_cons_self _ _)
      simp only [List.nil_append, hx, if_true]
      rw [scanLines_stops cb pre2 grps2 (pre2 ++ l :: post) l post h2 rfl
        (fun y hy => hpre y (List.mem_cons_of_mem _ hy)) hl e]
      rfl

lemma not_mem_goSplitOn (c : Char) (s : GoStr) :
    ∀ l ∈ goSplitOn c s, c ∉ l := by
  induction s with
  | nil =>
    intro l hl
    rw [goSplitOn] at hl
    rcases List.mem_singleton.mp hl with rfl
    exact List.not_mem_nil c
  | cons x rest ih =>
    intro l hl
    rw [goSplitOn] at hl
    rcases hr : goSplitOn c rest with _ | ⟨p, ps⟩
    · exact absurd hr (goSplitOn_ne_nil c rest)
    · rw [hr] at hl
      have hl2 : l ∈ (if x = c then [] :: p :: ps else (x :: p) :: ps) := hl
      by_cases hx : x = c
      · rw [if_pos hx] at hl2
        rcases List.mem_cons.mp hl2 with rfl | hl3
        · exact List.not_mem_nil c
        · exact ih l (hr ▸ hl3)
      · rw [if_neg hx] at hl2
        rcases List.mem_cons.mp hl2 with rfl | hl3
        · intro hm
          rcases List.mem_cons.mp hm with rfl | hm2
          · exact hx rfl
          · exact ih p (hr ▸ List.mem_cons_self p ps) hm2
        · exact ih l (hr ▸ List.mem_cons_of_mem p hl3)

lemma rlLines_no_nl (content : GoStr) : ∀ l ∈ rlLines content, '\n' ∉ l := by
  intro l hl
  rw [rlLines] at hl
  rcases List.mem_append.mp hl with h1 | h2
  · rw [completeLines] at h1
    obtain ⟨q, hq, rfl⟩ := List.mem_map.mp h1
    have hq2 : q ∈ goSplitOn '\n' content := List.dropLast_subset _ hq
    have hnq := not_mem_goSplitOn '\n' content q hq2
    rw [dropCR]
    by_cases hc : q.getLast? = some '\r'
    · rw [if_pos hc]
      intro hm
      exact hnq (List.dropLast_subset _ hm)
    · rw [if_neg hc]
      exact hnq
  · by_cases ht : trailingPart content = []
    · rw [if_pos ht] at h2
      exact absurd h2 (List.not_mem_nil l)
    · rw [if_neg ht] at h2
      rcases List.mem_singleton.mp h2 with rfl
      have hne := goSplitOn_ne_nil '\n' content
      have : trailingPart content ∈ goSplitOn '\n' content := by
        rw [trailingPart, List.getLastD_eq_getLast?, List.getLast?_eq_getLast _ hne]
        exact List.getLast_mem hne
      exact not_mem_goSplitOn '\n' content _ this

/-- Counterexample to claim C4 as stated: for the stream `"x\nab"` — one
complete line `"x"` followed by an unterminated segment `"ab"` — a valid
`ReadLine` trace makes `scanLines` invoke the callback twice, once for the
complete line and once for the trailing segment, so the callback is not
invoked exactly once per complete line. -/
theorem c4_counterexample :
    chunkListFor [[⟨gs "x", false⟩], [⟨gs "ab", false⟩]] (rlLines (gs "x\nab")) = true ∧
    (scanLines (fun _ => true) [⟨gs "x", false⟩, ⟨gs "ab", false⟩] .eofEnd []).1 =
      [gs "x", gs "ab"] ∧
    completeLines (gs "x\nab") = [gs "x"] ∧
    ([gs "x", gs "ab"] : List GoStr) ≠ [gs "x"] :=
  ⟨by decide, by decide, by decide, by decide⟩

/-- Claim C4 (amended): over any valid `ReadLine` trace of a byte stream,
`scanLines` invokes its callback exactly once per line delivered by
`ReadLine` — each complete line without its terminator, plus the non-empty
trailing unterminated segment, in order, accumulating prefix chunks across
read boundaries; it returns `nil` on end-of-stream and on a closed handle,
returns any other read error, and stops immediately (returning `nil`) when
the callback returns `false`. -/
theorem c4_scan_lines_amended (content : GoStr) (grps : List (List RLChunk))
    (e : ReadEnd) (h : chunkListFor grps (rlLines content) = true) :
    ((e = .eofEnd ∨ e = .closedEnd) →
      scanLines (fun _ => true) grps.flatten e [] = (rlLines content, none)) ∧
    (∀ n, e = .otherEnd n →
      scanLines (fun _ => true) grps.flatten e [] = (rlLines content, some n)) ∧
    (∀ l ∈ rlLines content, '\n' ∉ l) ∧
    (∀ (cb : GoStr → Bool) (pre : List GoStr) (l : GoStr) (post : List GoStr),
      rlLines content = pre ++ l :: post →
      (∀ x ∈ pre, cb x = true) → cb l = false →
      scanLines cb grps.flatten e [] = (pre ++ [l], none)) := by
  refine ⟨?_, ?_, rlLines_no_nl content, ?_⟩
  · intro he
    rw [scanLines_all grps _ h e]
    rcases he with rfl | rfl <;> rfl
  · intro n he
    rw [scanLines_all grps _ h e]
    rw [he]
    rfl
  · intro cb pre l post hls hpre hl
    exact scanLines_stops cb pre grps _ l post h hls hpre hl e

/-- Witness for C4 (amended) at a concrete input: the stream `"a\nbc"`,
with the second line delivered in two prefix chunks, on a closed handle. -/
theorem c4_scan_lines_amended_witness :
    scanLines (fun _ => true)
        ([[⟨gs "a", false⟩], [⟨gs "b", true⟩, ⟨gs "c", false⟩]] :
          List (List RLChunk)).flatten .closedEnd [] =
      (rlLines (gs "a\nbc"), none) :=
  (c4_scan_lines_amended (gs "a\nbc")
    [[⟨gs "a", false⟩], [⟨gs "b", true⟩, ⟨gs "c", false⟩]] .closedEnd
    (by decide)).1 (Or.inr rfl)

/-- Counterexample to claim C10 as stated: the stream `"ab"` has no line
terminator at all, yet on a valid `ReadLine` trace `scanLines` does invoke
its callback on the trailing partial data (`ReadLine` returns the final
unterminated segment like a line, with no error indication), rather than
discarding it. -/
theorem c10_counterexample :
    chunkListFor [[⟨gs "ab", false⟩]] (rlLines (gs "ab")) = true ∧
    scanLines (fun _ => true) [⟨gs "ab", false⟩] .eofEnd [] = ([gs "ab"], none) ∧
    ([gs "ab"] : List GoStr) ≠ [] :=
  ⟨by decide, by decide, by decide⟩

/-- Claim C10 (amended): for a stream whose content ends in a non-empty
segment without a line terminator, `scanLines` (with an always-true
callback) does invoke the callback on that trailing partial data — it is
delivered as the final line, not discarded. -/
theorem c10_trailing_amended (content : GoStr) (grps : List (List RLChunk))
    (e : ReadEnd) (h : chunkListFor grps (rlLines content) = true)
    (ht : trailingPart content ≠ []) :
    (scanLines (fun _ => true) grps.flatten e []).1.getLast? =
      some (trailingPart content) := by
  rw [scanLines_all grps _ h e]
  show (rlLines content).getLast? = _
  rw [rlLines, if_neg ht]
  exact List.getLast?_concat _

/-- Witness for C10 (amended) at a concrete input: the terminator-less
stream `"ab"`. -/
theorem c10_trailing_amended_witness :
    (scanLines (fun _ => true)
        ([[⟨gs "ab", false⟩]] : List (List RLChunk)).flatten .eofEnd []).1.getLast? =
      some (trailingPart (gs "ab")) :=
  c10_trailing_amended (gs "ab") [[⟨gs "ab", false⟩]] .eofEnd (by decide) (by decide)

/-! ## The ProcessManager shutdown coordination (src/unnamed/part_002
lines 82-126)

`ProcessManager.Run` starts one goroutine per process (`runProcess`, whose
deferred sends put a value on the buffered `done` channel and then mark the
wait group when `proc.Run` returns), spawns `waitForExit`, and blocks in
`procWg.Wait()`. `waitForExit` is sequential: it blocks in
`waitForDoneOrInterrupt` (`select` on `done` / `interrupted`), launches
`Interrupt()` on every process, blocks in `waitForTimeoutOrInterrupt`
(`select` on `time.After(timeout)` / `interrupted`), then launches `Kill()`
on every process.

This is embedded as an executable event system. The coordinator's program
counter: `w1` = blocked in the first select, `r1` = first select returned
via the signal channel, `w2` = blocked in the second select, `r2` = second
select returned, `cfin` = `waitForExit` finished. Events:

* `exit i` — process `i`'s `Run` goroutine returns (at most once per
  process); the buffered `done` channel never blocks the sender.
* `sig` — an external `SIGINT`/`SIGTERM` is received from the unbuffered
  `interrupted` channel. `signal.Notify` drops signals when no receiver is
  ready, so reception is only possible while the coordinator is blocked in
  one of the two selects; dropped signals have no other effect and are
  omitted from traces.
* `intr` — `waitForExit` issues `go proc.Interrupt()` for every process
  (lines 119-121); enabled when the first select returned via a signal
  (`r1`) or via the `done` channel, i.e. some process has exited (`w1` with
  a non-empty exit set).
* `tmout` — the `time.After(pm.timeout)` timer fires. The timer is created
  on entry to the second select, after the interrupts were issued, so the
  event is enabled only in `w2`: the grace timeout is measured from the
  moment the interrupts are issued.
* `kill` — `waitForExit` issues `go proc.Kill()` for every process
  (lines 123-125); enabled once the second select returned (`r2`).
* `ret` — `ProcessManager.Run` returns from `procWg.Wait()`; enabled once
  every process's `Run` goroutine has returned, independent of the
  coordinator's progress. -/

/-- Events of one `ProcessManager.Run` execution with `n` processes. -/
inductive MEvent (n : Nat) where
  | exit (i : Fin n)
  | sig
  | intr
  | tmout
  | kill
  | ret
deriving DecidableEq

/-- The shutdown coordinator's program counter. -/
inductive CoordPc where
  | w1
  | r1
  | w2
  | r2
  | cfin
deriving DecidableEq

/-- Manager state: coordinator pc, the set (as a duplicate-free list) of
processes whose `Run` goroutine has returned, and whether
`ProcessManager.Run` has returned. -/
structure MgrState (n : Nat) where
  pc : CoordPc
  exited : List (Fin n)
  retd : Bool
deriving DecidableEq

/-- Initial state of `ProcessManager.Run`. -/
def mgrInit (n : Nat) : MgrState n := ⟨.w1, [], false⟩

/-- One event step; `none` when the event is not enabled in `s`. -/
def mgrStep {n : Nat} (s : MgrState n) : MEvent n → Option (MgrState n)
  | .exit i =>
    if i ∈ s.exited then none else some { s with exited := i :: s.exited }
  | .sig =>
    match s.pc with
    | .w1 => some { s with pc := .r1 }
    | .w2 => some { s with pc := .r2 }
    | _ => none
  | .intr =>
    match s.pc with
    | .r1 => some { s with pc := .w2 }
    | .w1 => if s.exited = [] then none else some { s with pc := .w2 }
    | _ => none
  | .tmout =>
    match s.pc with
    | .w2 => some { s with pc := .r2 }
    | _ => none
  | .kill =>
    match s.pc with
    | .r2 => some { s with pc := .cfin }
    | _ => none
  | .ret =>
    if s.retd then none
    else if (List.finRange n).all (fun i => i ∈ s.exited) then
      some { s with retd := true }
    else none

/-- Run a trace of events from a state. -/
def mgrRun {n : Nat} (s : MgrState n) : List (MEvent n) → Option (MgrState n)
  | [] => some s
  | e :: evs => (mgrStep s e).bind (fun s2 => mgrRun s2 evs)

lemma mgrRun_append {n : Nat} (s : MgrState n) (a b : List (MEvent n)) :
    mgrRun s (a ++ b) = (mgrRun s a).bind (fun s2 => mgrRun s2 b) := by
  induction a generalizing s with
  | nil => rfl
  | cons e evs ih =>
    rw [List.cons_append, mgrRun, mgrRun]
    cases mgrStep s e with
    | none => rfl
    | some s2 =>
      rw [Option.some_bind, Option.some_bind, ih]

lemma mgrRun_decomp {n : Nat} (s sf : MgrState n) (a : List (MEvent n))
    (e : MEvent n) (d : List (MEvent n)) (h : mgrRun s (a ++ e :: d) = some sf) :
    ∃ smid s2, mgrRun s a = some smid ∧ mgrStep smid e = some s2 := by
  rw [mgrRun_append] at h
  rcases ha : mgrRun s a with _ | smid
  · rw [ha, Option.none_bind] at h
    exact absurd h (by simp)
  · rw [ha, Option.some_bind, mgrRun] at h
    rcases hs : mgrStep smid e with _ | s2
    · rw [hs, Option.none_bind] at h
      exact absurd h (by simp)
    · exact ⟨smid, s2, rfl, hs⟩

lemma getElem?_append_lift {α : Type} {l : List α} {q : Nat} {y : α} (x : α)
    (h : l[q]? = some y) : (l ++ [x])[q]? = some y := by
  obtain ⟨hlt, _⟩ := List.getElem?_eq_some.mp h
  rw [List.getElem?_append_left hlt]
  exact h

lemma getElem?_take_lift {α : Type} (l : List α) (p q : Nat) (x : α)
    (h : (l.take p)[q]? = some x) : l[q]? = some x ∧ q < p := by
  obtain ⟨hlt, _⟩ := List.getElem?_eq_some.mp h
  have hqp : q < p := by
    rw [List.length_take] at hlt
    omega
  refine ⟨?_, hqp⟩
  conv_lhs => rw [← List.take_append_drop p l]
  rw [List.getElem?_append_left hlt]
  exact h

lemma getElem?_list_decomp {α : Type} (l : List α) (p : Nat) (x : α)
    (h : l[p]? = some x) :
    l = l.take p ++ x :: l.drop (p + 1) ∧ (l.take p).length = p := by
  obtain ⟨hlt, hx⟩ := List.getElem?_eq_some.mp h
  constructor
  · conv_lhs => rw [← List.take_append_drop p l]
    rw [List.drop_eq_getElem_cons hlt, hx]
  · rw [List.length_take]
    omega

/-- History invariant of reachable manager states: exited processes have
their exit events in the trace; pc `r1` implies a signal was received; pc
past the first select implies the interrupts were issued; pc past the
second select implies the interrupts were issued and, strictly later, the
grace timer fired or a signal was received. -/
lemma mgrRun_inv {n : Nat} (pre : List (MEvent n)) :
    ∀ s : MgrState n, mgrRun (mgrInit n) pre = some s →
      (∀ i ∈ s.exited, MEvent.exit i ∈ pre) ∧
      (s.pc = .r1 → MEvent.sig ∈ pre) ∧
      ((s.pc = .w2 ∨ s.pc = .r2 ∨ s.pc = .cfin) → MEvent.intr ∈ pre) ∧
      ((s.pc = .r2 ∨ s.pc = .cfin) →
        ∃ q r : Nat, q < r ∧ pre[q]? = some MEvent.intr ∧
          (pre[r]? = some MEvent.tmout ∨ pre[r]? = some MEvent.sig)) := by
  induction pre using List.reverseRecOn with
  | nil =>
    intro s h
    rw [mgrRun] at h
    injection h with h2
    subst h2
    refine ⟨?_, ?_, ?_, ?_⟩
    · intro i hi
      exact absurd hi (List.not_mem_nil i)
    · intro hpc
      simp [mgrInit] at hpc
    · intro hpc
      simp [mgrInit] at hpc
    · intro hpc
      simp [mgrInit] at hpc
  | append_singleton a e ih =>
    intro s h
    obtain ⟨smid, s2, ha, hs⟩ := mgrRun_decomp _ _ a e [] h
    rw [mgrRun_append, ha, Option.some_bind, mgrRun, hs, Option.some_bind, mgrRun] at h
    injection h with heq
    subst heq
    obtain ⟨ih1, ih2, ih3, ih4⟩ := ih smid ha
    have memL : ∀ x : MEvent n, x ∈ a → x ∈ a ++ [e] :=
      fun x hx => List.mem_append.mpr (Or.inl hx)
    have memR : e ∈ a ++ [e] :=
      List.mem_append.mpr (Or.inr (List.mem_singleton.mpr rfl))
    have pairL : (∃ q r : Nat, q < r ∧ a[q]? = some MEvent.intr ∧
          (a[r]? = some MEvent.tmout ∨ a[r]? = some MEvent.sig)) →
        ∃ q r : Nat, q < r ∧ (a ++ [e])[q]? = some MEvent.intr ∧
          ((a ++ [e])[r]? = some MEvent.tmout ∨ (a ++ [e])[r]? = some MEvent.sig) := by
      rintro ⟨q, r, hqr, hq, hr⟩
      exact ⟨q, r, hqr, getElem?_append_lift e hq,
        hr.imp (getElem?_append_lift e) (getElem?_append_lift e)⟩
    have pairNew : MEvent.intr ∈ a → (e = MEvent.tmout ∨ e = MEvent.sig) →
        ∃ q r : Nat, q < r ∧ (a ++ [e])[q]? = some MEvent.intr ∧
          ((a ++ [e])[r]? = some MEvent.tmout ∨ (a ++ [e])[r]? = some MEvent.sig) := by
      intro hintr he
      obtain ⟨q, hq⟩ := List.mem_iff_getElem?.mp hintr
      obtain ⟨hlt, _⟩ := List.getElem?_eq_some.mp hq
      refine ⟨q, a.length, hlt, getElem?_append_lift e hq, ?_⟩
      rcases he with rfl | rfl
      · exact Or.inl (List.getElem?_concat_length a _)
      · exact Or.inr (List.getElem?_concat_length a _)
    cases e with
    | exit i =>
      rw [mgrStep] at hs
      by_cases hmem : i ∈ smid.exited
      · rw [if_pos hmem] at hs
        simp at hs
      · rw [if_neg hmem] at hs
        injection hs with hs2
        subst hs2
        refine ⟨?_, ?_, ?_, ?_⟩
        · intro j hj
          rcases List.mem_cons.mp hj with rfl | hj3
          · exact memR
          · exact memL _ (ih1 j hj3)
        · intro hpc
          exact memL _ (ih2 hpc)
        · intro hpc
          exact memL _ (ih3 hpc)
        · intro hpc
          exact pairL (ih4 hpc)
    | sig =>
      rw [mgrStep] at hs
      cases hpc : smid.pc with
      | w1 =>
        rw [hpc] at hs
        injection hs with hs2
        subst hs2
        refine ⟨fun j hj => memL _ (ih1 j hj), fun _ => memR, ?_, ?_⟩
        · intro hpc2
          rcases hpc2 with h2 | h2 | h2 <;> simp at h2
        · intro hpc2
          rcases hpc2 with h2 | h2 <;> simp at h2
      | w2 =>
        rw [hpc] at hs
        injection hs with hs2
        subst hs2
        refine ⟨fun j hj => memL _ (ih1 j hj), ?_, ?_, ?_⟩
        · intro h2
          simp at h2
        · intro _
          exact memL _ (ih3 (Or.inl hpc))
        · intro _
          exact pairNew (ih3 (Or.inl hpc)) (Or.inr rfl)
      | r1 =>
        rw [hpc] at hs
        simp at hs
      | r2 =>
        rw [hpc] at hs
        simp at hs
      | cfin =>
        rw [hpc] at hs
        simp at hs
    | intr =>
      rw [mgrStep] at hs
      cases hpc : smid.pc with
      | r1 =>
        rw [hpc] at hs
        injection hs with hs2
        subst hs2
        refine ⟨fun j hj => memL _ (ih1 j hj), ?_, fun _ => memR, ?_⟩
        · intro h2
          simp at h2
        · intro hpc2
          rcases hpc2 with h2 | h2 <;> simp at h2
      | w1 =>
        rw [hpc] at hs
        by_cases hex : smid.exited = []
        · rw [if_pos hex] at hs
          simp at hs
        · rw [if_neg hex] at hs
          injection hs with hs2
          subst hs2
          refine ⟨fun j hj => memL _ (ih1 j hj), ?_, fun _ => memR, ?_⟩
          · intro h2
            simp at h2
          · intro hpc2
            rcases hpc2 with h2 | h2 <;> simp at h2
      | w2 =>
        rw [hpc] at hs
        simp at hs
      | r2 =>
        rw [hpc] at hs
        simp at hs
      | cfin =>
        rw [hpc] at hs
        simp at hs
    | tmout =>
      rw [mgrStep] at hs
      cases hpc : smid.pc with
      | w2 =>
        rw [hpc] at hs
        injection hs with hs2
        subst hs2
        refine ⟨fun j hj => memL _ (ih1 j hj), ?_, ?_, ?_⟩
        · intro h2
          simp at h2
        · intro _
          exact memL _ (ih3 (Or.inl hpc))
        · intro _
          exact pairNew (ih3 (Or.inl hpc)) (Or.inl rfl)
      | w1 =>
        rw [hpc] at hs
        simp at hs
      | r1 =>
        rw [hpc] at hs
        simp at hs
      | r2 =>
        rw [hpc] at hs
        simp at hs
      | cfin =>
        rw [hpc] at hs
        simp at hs
    | kill =>
      rw [mgrStep] at hs
      cases hpc : smid.pc with
      | r2 =>
        rw [hpc] at hs
        injection hs with hs2
        subst hs2
        refine ⟨fun j hj => memL _ (ih1 j hj), ?_, ?_, ?_⟩
        · intro h2
          simp at h2
        · intro _
          exact memL _ (ih3 (Or.inr (Or.inl hpc)))
        · intro _
          exact pairL (ih4 (Or.inl hpc))
      | w1 =>
        rw [hpc] at hs
        simp at hs
      | r1 =>
        rw [hpc] at hs
        simp at hs
      | w2 =>
        rw [hpc] at hs
        simp at hs
      | cfin =>
        rw [hpc] at hs
        simp at hs
    | ret =>
      rw [mgrStep] at hs
      by_cases hr : smid.retd = true
      · rw [if_pos hr] at hs
        simp at hs
      · rw [if_neg hr] at hs
        by_cases hall : (List.finRange n).all (fun i => i ∈ smid.exited) = true
        · rw [if_pos hall] at hs
          injection hs with hs2
          subst hs2
          exact ⟨fun j hj => memL _ (ih1 j hj), fun h2 => memL _ (ih2 h2),
            fun h2 => memL _ (ih3 h2), fun h2 => pairL (ih4 h2)⟩
        · rw [if_neg hall] at hs
          simp at hs

/-- Claim C1 (amended): in every execution of `ProcessManager.Run`, the
interrupts are issued only after the first of {some process's `Run`
goroutine returned, an external interrupt signal arrived}; the kills are
issued only after the interrupts were issued and, strictly after them, the
grace timer fired or an external interrupt signal arrived during the grace
wait (the second signal overall when the first wait was ended by a signal);
the grace timer can only fire after the interrupts were issued (it is
started when the second wait begins); and `ProcessManager.Run` returns only
after every process's `Run` goroutine has returned. -/
theorem c1_shutdown_order_amended (n : Nat) (tr : List (MEvent n))
    (s : MgrState n) (h : mgrRun (mgrInit n) tr = some s) :
    (∀ p : Nat, tr[p]? = some MEvent.intr →
      (∃ i : Fin n, MEvent.exit i ∈ tr.take p) ∨ MEvent.sig ∈ tr.take p) ∧
    (∀ p : Nat, tr[p]? = some MEvent.kill →
      ∃ q r : Nat, q < r ∧ r < p ∧ tr[q]? = some MEvent.intr ∧
        (tr[r]? = some MEvent.tmout ∨ tr[r]? = some MEvent.sig)) ∧
    (∀ p : Nat, tr[p]? = some MEvent.tmout → MEvent.intr ∈ tr.take p) ∧
    (∀ p : Nat, tr[p]? = some MEvent.ret →
      ∀ i : Fin n, MEvent.exit i ∈ tr.take p) := by
  refine ⟨?_, ?_, ?_, ?_⟩
  · intro p hp
    obtain ⟨hdec, hlen⟩ := getElem?_list_decomp tr p _ hp
    rw [hdec] at h
    obtain ⟨smid, s2, ha, hs⟩ := mgrRun_decomp _ _ _ _ _ h
    obtain ⟨ih1, ih2, ih3, ih4⟩ := mgrRun_inv (tr.take p) smid ha
    rw [mgrStep] at hs
    cases hpc : smid.pc with
    | r1 =>
      right
      exact ih2 hpc
    | w1 =>
      rw [hpc] at hs
      by_cases hex : smid.exited = []
      · rw [if_pos hex] at hs
        simp at hs
      · left
        rcases hne : smid.exited with _ | ⟨j, js⟩
        · exact absurd hne hex
        · exact ⟨j, ih1 j (hne ▸ List.mem_cons_self j js)⟩
    | w2 =>
      rw [hpc] at hs
      simp at hs
    | r2 =>
      rw [hpc] at hs
      simp at hs
    | cfin =>
      rw [hpc] at hs
      simp at hs
  · intro p hp
    obtain ⟨hdec, hlen⟩ := getElem?_list_decomp tr p _ hp
    rw [hdec] at h
    obtain ⟨smid, s2, ha, hs⟩ := mgrRun_decomp _ _ _ _ _ h
    obtain ⟨ih1, ih2, ih3, ih4⟩ := mgrRun_inv (tr.take p) smid ha
    rw [mgrStep] at hs
    cases hpc : smid.pc with
    | r2 =>
      obtain ⟨q, r, hqr, hq, hr⟩ := ih4 (Or.inl hpc)
      obtain ⟨hq2, hqp⟩ := getElem?_take_lift tr p q _ hq
      have hrp : r < p := by
        rcases hr with hr | hr
        · exact (getElem?_take_lift tr p r _ hr).2
        · exact (getElem?_take_lift tr p r _ hr).2
      refine ⟨q, r, hqr, hrp, hq2, ?_⟩
      rcases hr with hr | hr
      · exact Or.inl (getElem?_take_lift tr p r _ hr).1
      · exact Or.inr (getElem?_take_lift tr p r _ hr).1
    | w1 =>
      rw [hpc] at hs
      simp at hs
    | r1 =>
      rw [hpc] at hs
      simp at hs
    | w2 =>
      rw [hpc] at hs
      simp at hs
    | cfin =>
      rw [hpc] at hs
      simp at hs
  · intro p hp
    obtain ⟨hdec, hlen⟩ := getElem?_list_decomp tr p _ hp
    rw [hdec] at h
    obtain ⟨smid, s2, ha, hs⟩ := mgrRun_decomp _ _ _ _ _ h
    obtain ⟨ih1, ih2, ih3, ih4⟩ := mgrRun_inv (tr.take p) smid ha
    rw [mgrStep] at hs
    cases hpc : smid.pc with
    | w2 =>
      exact ih3 (Or.inl hpc)
    | w1 =>
      rw [hpc] at hs
      simp at hs
    | r1 =>
      rw [hpc] at hs
      simp at hs
    | r2 =>
      rw [hpc] at hs
      simp at hs
    | cfin =>
      rw [hpc] at hs
      simp at hs
  · intro p hp
    obtain ⟨hdec, hlen⟩ := getElem?_list_decomp tr p _ hp
    rw [hdec] at h
    obtain ⟨smid, s2, ha, hs⟩ := mgrRun_decomp _ _ _ _ _ h
    obtain ⟨ih1, ih2, ih3, ih4⟩ := mgrRun_inv (tr.take p) smid ha
    rw [mgrStep] at hs
    by_cases hr : smid.retd = true
    · rw [if_pos hr] at hs
      simp at hs
    · rw [if_neg hr] at hs
      by_cases hall : (List.finRange n).all (fun i => i ∈ smid.exited) = true
      · intro i
        have hmem := List.all_eq_true.mp hall i (List.mem_finRange i)
        exact ih1 i (of_decide_eq_true hmem)
      · rw [if_neg hall] at hs
        simp at hs

/-- Counterexample to claim C1 as stated: the claim says the second wait
unblocks only on the grace timeout or on a *second* external interrupt
signal. In the trace below the first stage is triggered by a process exit;
a single signal — the only one in the whole run — then arrives during the
grace wait and `Kill()` is issued immediately: no timeout fired and fewer
than two signals were ever received before the kill. -/
theorem c1_counterexample :
    mgrRun (mgrInit 1) [.exit 0, .intr, .sig, .kill] =
      some ⟨.cfin, [0], false⟩ ∧
    ([.exit 0, .intr, .sig, .kill] : List (MEvent 1))[3]? = some MEvent.kill ∧
    (([.exit 0, .intr, .sig, .kill] : List (MEvent 1)).take 3).count MEvent.sig = 1 ∧
    MEvent.tmout ∉ ([.exit 0, .intr, .sig, .kill] : List (MEvent 1)).take 3 :=
  ⟨by decide, by decide, by decide, by decide⟩

/-- Witness for C1 (amended) at a concrete trace (one process; signal,
interrupts, exit, timeout, kills, return): the kill at position 4 is
preceded by the interrupts and, after them, a timeout. -/
theorem c1_shutdown_order_amended_witness :
    ∃ q r : Nat, q < r ∧ r < 4 ∧
      ([.sig, .intr, .exit 0, .tmout, .kill, .ret] : List (MEvent 1))[q]? =
        some MEvent.intr ∧
      (([.sig, .intr, .exit 0, .tmout, .kill, .ret] : List (MEvent 1))[r]? =
          some MEvent.tmout ∨
        ([.sig, .intr, .exit 0, .tmout, .kill, .ret] : List (MEvent 1))[r]? =
          some MEvent.sig) :=
  (c1_shutdown_order_amended 1 [.sig, .intr, .exit 0, .tmout, .kill, .ret]
    ⟨.cfin, [0], true⟩ (by decide)).2.1 4 rfl
